import Mathlib

/-!
Shallow embedding of the LSM-style key-value storage engine in
`storage_engine.py` (classes `MemTable`, `WAL`, `SSTable`, `StorageEngine`).

Keys in the source are strings compared lexicographically; the embedding is
parametric in a key type `K` with a decidable linear order, of which the
source's string order is one instance (the engine only ever compares keys).
Values are modelled by `Option Val`: Python's `None` — used both as the
tombstone written by `delete` and as the "no value" result — is `none`, and a
non-null payload `v` is `some v`.  The payload domain `Val` is fixed to
`String`; the engine never inspects payloads.

The `OrderedDict` kept sorted by `_sort` (MemTable) and the `dict`s used by
`get_range`/compaction are modelled as association lists sorted by key with
insert-or-overwrite (`alInsert`), which is extensionally the dict contents
listed in sorted key order — exactly what the Python code produces via
`sorted(...)` at each use site.
-/

abbrev Val := String

variable {K : Type} [LinearOrder K]

/-- In-memory table contents: `MemTable.data`, a key-sorted map from key to
value-or-tombstone (`none` is Python `None`, the tombstone). -/
abbrev MT (K : Type) := List (K × Option Val)

/-- On-disk sorted run contents: the parsed entries of an SSTable file
(`{'key': k, 'value': v}` per line, `v` possibly `null`). -/
abbrev SST (K : Type) := List (K × Option Val)

/-- Insert-or-overwrite into a key-sorted association list.  This is the net
effect of Python's `dict`/`OrderedDict` assignment followed by sorting the
items by key. -/
def alInsert {β : Type} : List (K × β) → K → β → List (K × β)
  | [], k, v => [(k, v)]
  | (k', v') :: t, k, v =>
    if k < k' then (k, v) :: (k', v') :: t
    else if k = k' then (k, v) :: t
    else (k', v') :: alInsert t k v

/-- Association-list lookup (Python `dict.__contains__` / indexing). -/
def alFind {β : Type} : List (K × β) → K → Option β
  | [], _ => none
  | (k', v') :: t, k => if k = k' then some v' else alFind t k

/-- `MemTable.put`: `self.data[key] = value` then `_sort`. -/
def mtPut (m : MT K) (k : K) (v : Option Val) : MT K := alInsert m k v

/-- `MemTable.delete`: `self.data[key] = None` then `_sort` — the tombstone is
the very value `None`. -/
def mtDelete (m : MT K) (k : K) : MT K := alInsert m k none

/-- `MemTable.get`: `self.data.get(key)` — returns `None` both when the key is
absent and when it is present with the stored value `None`; the flattening
`Option.join` is that conflation. -/
def mtGet (m : MT K) (k : K) : Option Val := (alFind m k).join

/-- `MemTable.get_range`: keys in `[start_key, end_key]` whose value
`is not None`, in table (ascending) order. -/
def mtGetRange (m : MT K) (lo hi : K) : List (K × Val) :=
  m.filterMap fun kv =>
    if lo ≤ kv.1 ∧ kv.1 ≤ hi then kv.2.map fun v => (kv.1, v) else none

/-- `MemTable.is_full`: `len(self.data) >= self.max_size`. -/
def mtIsFull (m : MT K) (maxSize : Nat) : Prop := m.length ≥ maxSize

instance (m : MT K) (n : Nat) : Decidable (mtIsFull m n) := Nat.decLe n m.length

/-- `SSTable.get`: `None` when the key is not in the index, otherwise the
stored value — which is itself `None` for a stored tombstone. -/
def sstGet (t : SST K) (k : K) : Option Val := (alFind t k).join

/-- `SSTable.get_range`: iterates the sorted index keys in `[start_key,
end_key]` and keeps those whose stored value `is not None` — tombstones are
filtered out at the SSTable level. -/
def sstGetRange (t : SST K) (lo hi : K) : List (K × Val) :=
  t.filterMap fun kv =>
    if lo ≤ kv.1 ∧ kv.1 ≤ hi then kv.2.map fun v => (kv.1, v) else none

/-- `SSTable.index.keys()` in file (sorted) order. -/
def sstKeys (t : SST K) : List K := t.map (·.1)

/-- `SSTable.write`: writes `sorted(data)` and builds the key → offset index
(on duplicate keys the index keeps the last occurrence); the resulting
key → value map is the fold of insert-or-overwrite.  All call sites pass
duplicate-free data. -/
def sstWrite (data : List (K × Option Val)) : SST K :=
  data.foldl (fun acc kv => alInsert acc kv.1 kv.2) []

/-- One WAL record, as serialized by `WAL.append`: a JSON object with fields
`operation`, `key`, `value` (the `timestamp` field is written but never read
by any consumer, and is omitted here). -/
structure WalRec (K : Type) where
  op : String
  key : K
  value : Option Val
deriving DecidableEq, Repr

/-- One line of the WAL file as `WAL.replay` classifies it: blank (skipped),
a line `json.loads` rejects, or a parsed record. -/
inductive WalLine (K : Type) where
  | blank : WalLine K
  | corrupt : WalLine K
  | record : WalRec K → WalLine K
deriving DecidableEq, Repr

/-- `WAL.replay`: collect parsed records in file order; a blank line is
skipped; the first `JSONDecodeError` aborts the loop, returning the records
collected so far (the `except` swallows the error). -/
def walReplayLines : List (WalLine K) → List (WalRec K)
  | [] => []
  | WalLine.blank :: rest => walReplayLines rest
  | WalLine.record r :: rest => r :: walReplayLines rest
  | WalLine.corrupt :: _ => []

/-- One step of `StorageEngine._recover_from_wal`: apply a replayed record to
the memtable (`put` → `MemTable.put`, `delete` → `MemTable.delete`, anything
else ignored by the `if`/`elif`). -/
def recApply (m : MT K) (r : WalRec K) : MT K :=
  if r.op = "put" then mtPut m r.key r.value
  else if r.op = "delete" then mtDelete m r.key
  else m

/-- Replay a record sequence into a memtable (`_recover_from_wal`'s loop). -/
def mtReplay (m : MT K) (recs : List (WalRec K)) : MT K := recs.foldl recApply m

/-- Replay into a fresh (empty) memtable, as at engine startup. -/
def recoverMem (recs : List (WalRec K)) : MT K := mtReplay [] recs

/-- `StorageEngine` state: the memtable contents, the configured
`memtable_size`, the records currently in `wal.log`, and the SSTable list
(later position = newer generation; `get` iterates it `reversed`). -/
structure Engine (K : Type) where
  memtable : MT K
  maxSize : Nat
  wal : List (WalRec K)
  sstables : List (SST K)
deriving DecidableEq, Repr

/-- A fresh engine on an empty data directory. -/
def freshEngine (K : Type) (maxSize : Nat) : Engine K :=
  { memtable := [], maxSize := maxSize, wal := [], sstables := [] }

/-- The SSTable-list transformation of
`StorageEngine._compact_sstables_internal`: merge all SSTables oldest to
newest into `all_data` via `all_data[key] = sstable.get(key)`, drop entries
whose merged value `is None`, write one compacted SSTable, and replace the
list with it.  No-op with fewer than two SSTables. -/
def compactList (S : List (SST K)) : List (SST K) :=
  if S.length < 2 then S
  else
    let allData : List (K × Option Val) :=
      S.foldl
        (fun acc t => (sstKeys t).foldl (fun acc2 k => alInsert acc2 k (sstGet t k)) acc) []
    [sstWrite (allData.filter fun kv => kv.2.isSome)]

/-- `StorageEngine._compact_sstables_internal`: replaces the SSTable list by
its compaction; memtable and WAL are untouched. -/
def engineCompactInternal (e : Engine K) : Engine K :=
  { e with sstables := compactList e.sstables }

/-- `StorageEngine._flush_memtable`: no-op on an empty memtable; otherwise
write the memtable contents as a new SSTable (durably — `SSTable.write`
fsyncs before returning), append it to the list, clear the memtable,
truncate the WAL, then compact if more than 10 SSTables remain. -/
def engineFlush (e : Engine K) : Engine K :=
  if e.memtable = [] then e
  else
    let t := sstWrite e.memtable
    let e1 : Engine K := { e with sstables := e.sstables ++ [t], memtable := [], wal := [] }
    if e1.sstables.length > 10 then engineCompactInternal e1 else e1

/-- `StorageEngine.put`: append a `put` record to the WAL, insert into the
memtable, flush if full.  The value may be `None` (`none`), which the
memtable stores exactly like a tombstone. -/
def enginePut (e : Engine K) (k : K) (v : Option Val) : Engine K :=
  let e1 : Engine K :=
    { e with wal := e.wal ++ [{ op := "put", key := k, value := v }],
             memtable := mtPut e.memtable k v }
  if mtIsFull e1.memtable e1.maxSize then engineFlush e1 else e1

/-- `StorageEngine.delete`: append a `delete` record, insert the tombstone,
flush if full. -/
def engineDelete (e : Engine K) (k : K) : Engine K :=
  let e1 : Engine K :=
    { e with wal := e.wal ++ [{ op := "delete", key := k, value := none }],
             memtable := mtDelete e.memtable k }
  if mtIsFull e1.memtable e1.maxSize then engineFlush e1 else e1

/-- One iteration of the `StorageEngine.batch_put` loop: append one `put`
WAL record for the pair and apply it to the memtable. -/
def batchStep (acc : Engine K) (p : K × Option Val) : Engine K :=
  { acc with wal := acc.wal ++ [{ op := "put", key := p.1, value := p.2 }],
             memtable := mtPut acc.memtable p.1 p.2 }

/-- `StorageEngine.batch_put`: reject mismatched lengths (a `ValueError`
raised before any state change); otherwise run the loop over the zipped
pairs, then flush once if full. -/
def engineBatchPut (e : Engine K) (ks : List K) (vs : List (Option Val)) : Engine K :=
  if ks.length ≠ vs.length then e
  else
    let e1 := (ks.zip vs).foldl batchStep e
    if mtIsFull e1.memtable e1.maxSize then engineFlush e1 else e1

/-- The SSTable scan of `StorageEngine.get`: first value that
`is not None` wins; a stored `None` (tombstone) is indistinguishable from an
absent key and the scan continues into older tables. -/
def sstSearch (k : K) : List (SST K) → Option Val
  | [] => none
  | t :: ts => match sstGet t k with
    | some v => some v
    | none => sstSearch k ts

/-- `StorageEngine.get`: memtable first (`if value is not None: return`),
then the SSTables newest first (`reversed(self.sstables)`). -/
def engineGet (e : Engine K) (k : K) : Option Val :=
  match mtGet e.memtable k with
  | some v => some v
  | none => sstSearch k e.sstables.reverse

/-- `StorageEngine.get_range`: overlay each SSTable's (tombstone-filtered)
range oldest first into `result_dict`, then overlay the memtable's
(tombstone-filtered) range, and return the items sorted by key. -/
def engineGetRange (e : Engine K) (lo hi : K) : List (K × Val) :=
  let d1 := e.sstables.foldl
    (fun acc t => (sstGetRange t lo hi).foldl (fun a kv => alInsert a kv.1 kv.2) acc) []
  (mtGetRange e.memtable lo hi).foldl (fun a kv => alInsert a kv.1 kv.2) d1

/-- The public mutations and maintenance entry points of `StorageEngine`. -/
inductive Op (K : Type) where
  | put : K → Option Val → Op K
  | del : K → Op K
  | batch : List K → List (Option Val) → Op K
  | flushOp : Op K
  | compactOp : Op K
deriving DecidableEq, Repr

/-- Run one operation. -/
def runOp (e : Engine K) : Op K → Engine K
  | Op.put k v => enginePut e k v
  | Op.del k => engineDelete e k
  | Op.batch ks vs => engineBatchPut e ks vs
  | Op.flushOp => engineFlush e
  | Op.compactOp => engineCompactInternal e

/-- Run a sequence of operations. -/
def runOps (ops : List (Op K)) (e : Engine K) : Engine K := ops.foldl runOp e

/-- The externally visible steps of `_flush_memtable`, in program order:
`SSTable.write` (which fsyncs the file before returning), the append to
`self.sstables`, `self.memtable.clear()`, `self.wal.clear()` (the only place
the WAL is truncated), and possibly a compaction. -/
inductive FlushEv (K : Type) where
  | writeSST : SST K → FlushEv K
  | appendSST : FlushEv K
  | clearMem : FlushEv K
  | truncWAL : FlushEv K
  | compactEv : FlushEv K
deriving DecidableEq, Repr

/-- The step sequence `_flush_memtable` performs from state `e`: nothing on
an empty memtable; otherwise the four steps in source order, then compaction
when more than 10 SSTables remain. -/
def flushEvents (e : Engine K) : List (FlushEv K) :=
  if e.memtable = [] then []
  else
    [FlushEv.writeSST (sstWrite e.memtable), FlushEv.appendSST,
     FlushEv.clearMem, FlushEv.truncWAL]
      ++ (if (e.sstables ++ [sstWrite e.memtable]).length > 10 then [FlushEv.compactEv] else [])

/-- The WAL record `StorageEngine.put` and each `batch_put` iteration write
for a pair. -/
def mkPutRec (p : K × Option Val) : WalRec K :=
  { op := "put", key := p.1, value := p.2 }

/-- The memtable effect of applying a list of key/value pairs in order
(the memtable half of the `batch_put` loop). -/
def applyPairs (m : MT K) (ps : List (K × Option Val)) : MT K :=
  ps.foldl (fun a p => mtPut a p.1 p.2) m

/-- Auxiliary for the replay proofs: the value the replay of `recs` leaves at
key `k`, if some record writes `k` (`some (stored value)`), else `none`.
Later records dominate earlier ones. -/
def netWrite : List (WalRec K) → K → Option (Option Val)
  | [], _ => none
  | r :: rest, k =>
    match netWrite rest k with
    | some w => some w
    | none =>
      if r.op = "put" ∧ r.key = k then some r.value
      else if r.op = "delete" ∧ r.key = k then some none
      else none

/-- Strict key-sortedness of an association list — the invariant `_sort`
maintains for `MemTable.data` and `SSTable.write` establishes for files. -/
def MTSorted {β : Type} (l : List (K × β)) : Prop :=
  l.Pairwise fun a b => a.1 < b.1

/-- The recovery invariant tying `StorageEngine`'s memtable to its WAL: the
memtable holds exactly the replay of the WAL records written since the last
truncation. -/
def EngInv (e : Engine K) : Prop := e.memtable = recoverMem e.wal

theorem mtSorted_nil {β : Type} : MTSorted ([] : List (K × β)) := List.Pairwise.nil

theorem mtSorted_cons {β : Type} {a : K × β} {l : List (K × β)} :
    MTSorted (a :: l) ↔ (∀ p ∈ l, a.1 < p.1) ∧ MTSorted l := List.pairwise_cons

theorem mtSorted_append {β : Type} {l₁ l₂ : List (K × β)} :
    MTSorted (l₁ ++ l₂) ↔
      MTSorted l₁ ∧ MTSorted l₂ ∧ ∀ p ∈ l₁, ∀ q ∈ l₂, p.1 < q.1 := List.pairwise_append

theorem alFind_alInsert {β : Type} (l : List (K × β)) (k k' : K) (v : β) :
    alFind (alInsert l k v) k' = if k' = k then some v else alFind l k' := by
  induction l with
  | nil => rfl
  | cons hd tl ih =>
    obtain ⟨a, b⟩ := hd
    by_cases h1 : k < a
    · simp only [alInsert, if_pos h1]
      rfl
    · by_cases h2 : k = a
      · subst h2
        simp only [alInsert, if_neg h1, if_pos rfl]
        by_cases hk : k' = k <;> simp [alFind, hk]
      · simp only [alInsert, if_neg h1, if_neg h2]
        by_cases hk'a : k' = a
        · subst hk'a
          have hne : ¬ k' = k := fun h => h2 h.symm
          simp [alFind, hne]
        · simp only [alFind, if_neg hk'a, ih]

theorem mem_alInsert {β : Type} {l : List (K × β)} {k : K} {v : β} {p : K × β}
    (h : p ∈ alInsert l k v) : p = (k, v) ∨ p ∈ l := by
  induction l with
  | nil => simpa [alInsert] using h
  | cons hd tl ih =>
    obtain ⟨a, b⟩ := hd
    by_cases h1 : k < a
    · simp only [alInsert, if_pos h1] at h
      simpa using h
    · by_cases h2 : k = a
      · subst h2
        simp only [alInsert, if_neg h1, if_pos rfl] at h
        rcases List.mem_cons.mp h with h | h
        · exact Or.inl h
        · exact Or.inr (List.mem_cons_of_mem _ h)
      · simp only [alInsert, if_neg h1, if_neg h2] at h
        rcases List.mem_cons.mp h with h | h
        · exact Or.inr (h ▸ List.mem_cons_self _ _)
        · rcases ih h with h' | h'
          · exact Or.inl h'
          · exact Or.inr (List.mem_cons_of_mem _ h')

theorem alInsert_ne_nil {β : Type} (l : List (K × β)) (k : K) (v : β) :
    alInsert l k v ≠ [] := by
  cases l with
  | nil => simp [alInsert]
  | cons hd tl =>
    obtain ⟨a, b⟩ := hd
    simp only [alInsert]
    split_ifs <;> simp

theorem alInsert_sorted {β : Type} {l : List (K × β)} (hs : MTSorted l) (k : K) (v : β) :
    MTSorted (alInsert l k v) := by
  induction l with
  | nil => simp [alInsert, MTSorted]
  | cons hd tl ih =>
    obtain ⟨a, b⟩ := hd
    obtain ⟨ha, htl⟩ := mtSorted_cons.mp hs
    by_cases h1 : k < a
    · simp only [alInsert, if_pos h1]
      refine mtSorted_cons.mpr ⟨?_, hs⟩
      intro p hp
      rcases List.mem_cons.mp hp with rfl | hp
      · exact h1
      · exact lt_trans h1 (ha p hp)
    · by_cases h2 : k = a
      · subst h2
        simp only [alInsert, if_neg h1, if_pos rfl]
        exact mtSorted_cons.mpr ⟨ha, htl⟩
      · have h3 : a < k := by
          rcases lt_trichotomy k a with h | h | h
          · exact absurd h h1
          · exact absurd h h2
          · exact h
        simp only [alInsert, if_neg h1, if_neg h2]
        refine mtSorted_cons.mpr ⟨?_, ih htl⟩
        intro p hp
        rcases mem_alInsert hp with rfl | hp
        · exact h3
        · exact ha p hp

theorem alFind_eq_none {β : Type} {l : List (K × β)} {k : K}
    (h : ∀ p ∈ l, p.1 ≠ k) : alFind l k = none := by
  induction l with
  | nil => rfl
  | cons hd tl ih =>
    obtain ⟨a, b⟩ := hd
    simp only [alFind]
    rw [if_neg (fun hk => h (a, b) (List.mem_cons_self _ _) hk.symm)]
    exact ih fun p hp => h p (List.mem_cons_of_mem _ hp)

theorem alFind_some_mem {β : Type} {l : List (K × β)} {k : K} {v : β}
    (h : alFind l k = some v) : (k, v) ∈ l := by
  induction l with
  | nil => simp [alFind] at h
  | cons hd tl ih =>
    obtain ⟨a, b⟩ := hd
    simp only [alFind] at h
    by_cases hk : k = a
    · subst hk
      rw [if_pos rfl] at h
      injection h with h
      subst h
      exact List.mem_cons_self _ _
    · rw [if_neg hk] at h
      exact List.mem_cons_of_mem _ (ih h)

theorem alFind_ext {β : Type} :
    ∀ {l l' : List (K × β)}, MTSorted l → MTSorted l' →
      (∀ k, alFind l k = alFind l' k) → l = l' := by
  intro l
  induction l with
  | nil =>
    intro l' _ _ h
    cases l' with
    | nil => rfl
    | cons hd tl =>
      obtain ⟨a, b⟩ := hd
      have := h a
      simp [alFind] at this
  | cons hd tl ih =>
    intro l' hs hs' h
    obtain ⟨a, b⟩ := hd
    cases l' with
    | nil =>
      have := h a
      simp [alFind] at this
    | cons hd' tl' =>
      obtain ⟨a', b'⟩ := hd'
      obtain ⟨ha, htl⟩ := mtSorted_cons.mp hs
      obtain ⟨ha', htl'⟩ := mtSorted_cons.mp hs'
      have haa : a = a' := by
        by_contra hne
        have h1 := h a
        have h2 := h a'
        simp only [alFind, if_pos rfl] at h1 h2
        rw [if_neg hne] at h1
        rw [if_neg (fun hk => hne hk.symm)] at h2
        have hm1 := alFind_some_mem h1.symm
        have hm2 := alFind_some_mem h2
        have hlt1 : a' < a := ha' _ hm1
        have hlt2 : a < a' := ha _ hm2
        exact absurd hlt2 (lt_asymm hlt1)
      subst haa
      have hbb : b = b' := by
        have h1 := h a
        simp only [alFind, if_pos rfl] at h1
        injection h1
      subst hbb
      congr 1
      refine ih htl htl' fun k => ?_
      by_cases hk : k = a
      · subst hk
        rw [alFind_eq_none fun p hp => ne_of_gt (ha p hp),
            alFind_eq_none fun p hp => ne_of_gt (ha' p hp)]
      · have := h k
        simpa only [alFind, if_neg hk] using this

theorem alInsert_eq_append {β : Type} {l : List (K × β)} {k : K} (v : β)
    (h : ∀ p ∈ l, p.1 < k) : alInsert l k v = l ++ [(k, v)] := by
  induction l with
  | nil => rfl
  | cons hd tl ih =>
    obtain ⟨a, b⟩ := hd
    have hak : a < k := h (a, b) (List.mem_cons_self _ _)
    simp only [alInsert, if_neg (lt_asymm hak), if_neg hak.ne']
    rw [ih fun p hp => h p (List.mem_cons_of_mem _ hp)]
    rfl

theorem foldl_alInsert_of_sorted {β : Type} :
    ∀ (m acc : List (K × β)), MTSorted (acc ++ m) →
      m.foldl (fun a kv => alInsert a kv.1 kv.2) acc = acc ++ m := by
  intro m
  induction m with
  | nil => intro acc _; simp
  | cons hd tl ih =>
    intro acc hs
    obtain ⟨k, v⟩ := hd
    rw [List.foldl_cons]
    have h1 : ∀ p ∈ acc, p.1 < k := by
      intro p hp
      exact (mtSorted_append.mp hs).2.2 p hp (k, v) (List.mem_cons_self _ _)
    have hins : alInsert acc (k, v).1 (k, v).2 = acc ++ [(k, v)] :=
      alInsert_eq_append _ h1
    rw [hins, ih (acc ++ [(k, v)]) (by simpa using hs)]
    simp

theorem sstWrite_of_sorted {m : MT K} (hs : MTSorted m) : sstWrite m = m := by
  have := foldl_alInsert_of_sorted m [] (by simpa using hs)
  simpa [sstWrite] using this

theorem recApply_put (m : MT K) (k : K) (v : Option Val) :
    recApply m { op := "put", key := k, value := v } = mtPut m k v := rfl

theorem recApply_delete (m : MT K) (k : K) :
    recApply m { op := "delete", key := k, value := none } = mtDelete m k := rfl

theorem recApply_sorted {m : MT K} {r : WalRec K} (hs : MTSorted m) :
    MTSorted (recApply m r) := by
  unfold recApply mtPut mtDelete
  by_cases h1 : r.op = "put"
  · rw [if_pos h1]; exact alInsert_sorted hs _ _
  · rw [if_neg h1]
    by_cases h2 : r.op = "delete"
    · rw [if_pos h2]; exact alInsert_sorted hs _ _
    · rw [if_neg h2]; exact hs

theorem mtReplay_sorted {m : MT K} (hs : MTSorted m) (recs : List (WalRec K)) :
    MTSorted (mtReplay m recs) := by
  induction recs generalizing m with
  | nil => exact hs
  | cons r rest ih => exact ih (recApply_sorted hs)

theorem recoverMem_sorted (recs : List (WalRec K)) : MTSorted (recoverMem recs) :=
  mtReplay_sorted mtSorted_nil recs

theorem mtReplay_append (m : MT K) (a b : List (WalRec K)) :
    mtReplay m (a ++ b) = mtReplay (mtReplay m a) b := List.foldl_append ..

theorem alFind_recApply (m : MT K) (r : WalRec K) (k : K) :
    alFind (recApply m r) k =
      if r.op = "put" ∧ r.key = k then some r.value
      else if r.op = "delete" ∧ r.key = k then some none
      else alFind m k := by
  unfold recApply mtPut mtDelete
  by_cases h1 : r.op = "put"
  · rw [if_pos h1, alFind_alInsert]
    by_cases h2 : r.key = k
    · subst h2; simp [h1]
    · have h2' : ¬ k = r.key := fun h => h2 h.symm
      simp [h1, h2, h2']
  · rw [if_neg h1]
    by_cases h2 : r.op = "delete"
    · rw [if_pos h2, alFind_alInsert]
      by_cases h3 : r.key = k
      · subst h3; simp [h1, h2]
      · have h3' : ¬ k = r.key := fun h => h3 h.symm
        simp [h1, h2, h3, h3']
    · simp [h1, h2]

theorem alFind_mtReplay (recs : List (WalRec K)) :
    ∀ (m : MT K) (k : K),
      alFind (mtReplay m recs) k =
        ((netWrite recs k).orElse fun _ => alFind m k) := by
  induction recs with
  | nil => intro m k; rfl
  | cons r rest ih =>
    intro m k
    have hstep : mtReplay m (r :: rest) = mtReplay (recApply m r) rest := rfl
    rw [hstep, ih]
    cases hnw : netWrite rest k with
    | some w => simp [netWrite, hnw, Option.orElse]
    | none =>
      simp only [netWrite, hnw]
      rw [alFind_recApply]
      by_cases h1 : r.op = "put" ∧ r.key = k
      · simp [h1, Option.orElse]
      · by_cases h2 : r.op = "delete" ∧ r.key = k
        · simp [h1, h2, Option.orElse]
        · simp [h1, h2, Option.orElse]

/-- C7: replaying the same WAL record sequence a second time into the
memtable produced by the first replay yields exactly the memtable of a
single replay — WAL replay is idempotent, for every finite record
sequence. -/
theorem wal_replay_idempotent (recs : List (WalRec K)) :
    mtReplay (recoverMem recs) recs = recoverMem recs := by
  show mtReplay (mtReplay [] recs) recs = mtReplay [] recs
  refine alFind_ext (mtReplay_sorted (mtReplay_sorted mtSorted_nil recs) recs)
      (mtReplay_sorted mtSorted_nil recs) fun k => ?_
  rw [alFind_mtReplay]
  cases hnw : netWrite recs k with
  | some w =>
    rw [alFind_mtReplay]
    simp [hnw, Option.orElse]
  | none => simp [hnw, Option.orElse]

theorem compact_memtable (e : Engine K) : (engineCompactInternal e).memtable = e.memtable := rfl

theorem compact_wal (e : Engine K) : (engineCompactInternal e).wal = e.wal := rfl

theorem compact_maxSize (e : Engine K) : (engineCompactInternal e).maxSize = e.maxSize := rfl

theorem engineFlush_memtable {e : Engine K} (h : e.memtable ≠ []) :
    (engineFlush e).memtable = [] := by
  unfold engineFlush
  rw [if_neg h]
  dsimp only
  split
  · rfl
  · rfl

theorem engineFlush_wal {e : Engine K} (h : e.memtable ≠ []) :
    (engineFlush e).wal = [] := by
  unfold engineFlush
  rw [if_neg h]
  dsimp only
  split
  · rfl
  · rfl

theorem engineFlush_maxSize (e : Engine K) : (engineFlush e).maxSize = e.maxSize := by
  unfold engineFlush
  split
  · rfl
  · dsimp only
    split
    · rfl
    · rfl

theorem engineFlush_sstables {e : Engine K} (h : e.memtable ≠ []) :
    (engineFlush e).sstables =
      if (e.sstables ++ [sstWrite e.memtable]).length > 10
      then compactList (e.sstables ++ [sstWrite e.memtable])
      else e.sstables ++ [sstWrite e.memtable] := by
  unfold engineFlush
  rw [if_neg h]
  dsimp only
  split
  · rfl
  · rfl

theorem engInv_fresh (n : Nat) : EngInv (freshEngine K n) := rfl

theorem engInv_flush {e : Engine K} (h : EngInv e) : EngInv (engineFlush e) := by
  by_cases hm : e.memtable = []
  · unfold engineFlush
    rw [if_pos hm]
    exact h
  · unfold EngInv
    rw [engineFlush_memtable hm, engineFlush_wal hm]
    rfl

theorem engInv_compact {e : Engine K} (h : EngInv e) : EngInv (engineCompactInternal e) := h

theorem engInv_put {e : Engine K} (h : EngInv e) (k : K) (v : Option Val) :
    EngInv (enginePut e k v) := by
  have h' : e.memtable = recoverMem e.wal := h
  have h1 : EngInv
      { e with
        wal := e.wal ++ [{ op := "put", key := k, value := v }],
        memtable := mtPut e.memtable k v } := by
    unfold EngInv recoverMem
    dsimp only
    rw [mtReplay_append]
    show mtPut e.memtable k v = recApply (mtReplay [] e.wal) { op := "put", key := k, value := v }
    rw [recApply_put, h']
    rfl
  unfold enginePut
  dsimp only
  split
  · exact engInv_flush h1
  · exact h1

theorem engInv_delete {e : Engine K} (h : EngInv e) (k : K) :
    EngInv (engineDelete e k) := by
  have h' : e.memtable = recoverMem e.wal := h
  have h1 : EngInv
      { e with
        wal := e.wal ++ [{ op := "delete", key := k, value := none }],
        memtable := mtDelete e.memtable k } := by
    unfold EngInv recoverMem
    dsimp only
    rw [mtReplay_append]
    show mtDelete e.memtable k = recApply (mtReplay [] e.wal) { op := "delete", key := k, value := none }
    rw [recApply_delete, h']
    rfl
  unfold engineDelete
  dsimp only
  split
  · exact engInv_flush h1
  · exact h1

theorem engInv_batchStep {e : Engine K} (h : EngInv e) (p : K × Option Val) :
    EngInv (batchStep e p) := by
  have h' : e.memtable = recoverMem e.wal := h
  unfold EngInv recoverMem batchStep
  dsimp only
  rw [mtReplay_append]
  show mtPut e.memtable p.1 p.2 = recApply (mtReplay [] e.wal) { op := "put", key := p.1, value := p.2 }
  rw [recApply_put, h']
  rfl

theorem engInv_foldl_batchStep (ps : List (K × Option Val)) :
    ∀ {e : Engine K}, EngInv e → EngInv (ps.foldl batchStep e) := by
  induction ps with
  | nil => intro e h; exact h
  | cons p rest ih =>
    intro e h
    rw [List.foldl_cons]
    exact ih (engInv_batchStep h p)

theorem engInv_batchPut {e : Engine K} (h : EngInv e) (ks : List K) (vs : List (Option Val)) :
    EngInv (engineBatchPut e ks vs) := by
  unfold engineBatchPut
  split
  · exact h
  · dsimp only
    split
    · exact engInv_flush (engInv_foldl_batchStep _ h)
    · exact engInv_foldl_batchStep _ h

theorem engInv_runOp {e : Engine K} (h : EngInv e) (op : Op K) : EngInv (runOp e op) := by
  cases op with
  | put k v => exact engInv_put h k v
  | del k => exact engInv_delete h k
  | batch ks vs => exact engInv_batchPut h ks vs
  | flushOp => exact engInv_flush h
  | compactOp => exact engInv_compact h

theorem engInv_runOps (ops : List (Op K)) :
    ∀ {e : Engine K}, EngInv e → EngInv (runOps ops e) := by
  induction ops with
  | nil => intro e h; exact h
  | cons op rest ih =>
    intro e h
    rw [runOps, List.foldl_cons]
    exact ih (engInv_runOp h op)

theorem engInv_reachable (ops : List (Op K)) (n : Nat) :
    EngInv (runOps ops (freshEngine K n)) := engInv_runOps ops (engInv_fresh n)

/-- C6: for every reachable engine state with a non-empty memtable, the flush
step sequence performs the durable SSTable write first, then the append to
the in-memory sstables list, and only afterwards (position 3) the WAL
truncation; moreover the SSTable written is exactly the memtable contents,
which are exactly the net effect of replaying the current WAL — so at the
moment of truncation every WAL mutation is durable in the just-written
SSTable and the WAL never holds the only durable copy. -/
theorem flush_durable_before_wal_truncation (ops : List (Op K)) (n : Nat)
    (h : (runOps ops (freshEngine K n)).memtable ≠ []) :
    (flushEvents (runOps ops (freshEngine K n))).take 4
      = [FlushEv.writeSST (sstWrite (runOps ops (freshEngine K n)).memtable),
         FlushEv.appendSST, FlushEv.clearMem, FlushEv.truncWAL]
    ∧ sstWrite (runOps ops (freshEngine K n)).memtable = (runOps ops (freshEngine K n)).memtable
    ∧ (runOps ops (freshEngine K n)).memtable = recoverMem (runOps ops (freshEngine K n)).wal := by
  have hinv : (runOps ops (freshEngine K n)).memtable
      = recoverMem (runOps ops (freshEngine K n)).wal := engInv_reachable ops n
  have hsorted : MTSorted (runOps ops (freshEngine K n)).memtable := by
    rw [hinv]
    exact recoverMem_sorted _
  refine ⟨?_, sstWrite_of_sorted hsorted, hinv⟩
  unfold flushEvents
  rw [if_neg h]
  cases hc : (if ((runOps ops (freshEngine K n)).sstables
      ++ [sstWrite (runOps ops (freshEngine K n)).memtable]).length > 10
      then [FlushEv.compactEv] else []) <;> rfl

theorem flush_durable_before_wal_truncation_witness :
    (runOps [Op.put 1 (some "1")] (freshEngine Nat 10)).memtable ≠ [] ∧
    ((flushEvents (runOps [Op.put 1 (some "1")] (freshEngine Nat 10))).take 4
      = [FlushEv.writeSST (sstWrite (runOps [Op.put 1 (some "1")] (freshEngine Nat 10)).memtable),
         FlushEv.appendSST, FlushEv.clearMem, FlushEv.truncWAL]
    ∧ sstWrite (runOps [Op.put 1 (some "1")] (freshEngine Nat 10)).memtable
        = (runOps [Op.put 1 (some "1")] (freshEngine Nat 10)).memtable
    ∧ (runOps [Op.put 1 (some "1")] (freshEngine Nat 10)).memtable
        = recoverMem (runOps [Op.put 1 (some "1")] (freshEngine Nat 10)).wal) :=
  ⟨by decide, flush_durable_before_wal_truncation [Op.put 1 (some "1")] 10 (by decide)⟩

/-- C9: immediately after `put` returns, the memtable entry count is at most
the configured maximum: if the insertion reaches the threshold, the flush
triggered inside `put` empties the memtable before `put` returns, and
otherwise the count is strictly below the threshold. -/
theorem put_memtable_bounded (e : Engine K) (k : K) (v : Option Val) :
    (enginePut e k v).memtable.length ≤ e.maxSize
    ∧ (mtIsFull (mtPut e.memtable k v) e.maxSize → (enginePut e k v).memtable = []) := by
  unfold enginePut
  dsimp only
  by_cases hfull : mtIsFull (mtPut e.memtable k v) e.maxSize
  · rw [if_pos hfull]
    have hempty : (engineFlush
        { e with
          wal := e.wal ++ [{ op := "put", key := k, value := v }],
          memtable := mtPut e.memtable k v }).memtable = [] :=
      engineFlush_memtable (alInsert_ne_nil e.memtable k v)
    rw [hempty]
    exact ⟨Nat.zero_le _, fun _ => rfl⟩
  · rw [if_neg hfull]
    refine ⟨?_, fun hcon => absurd hcon hfull⟩
    exact Nat.le_of_lt (Nat.lt_of_not_le hfull)

theorem put_memtable_bounded_witness :
    (enginePut (freshEngine Nat 1) 1 (some "1")).memtable = [] :=
  (put_memtable_bounded (freshEngine Nat 1) 1 (some "1")).2 (by decide)

theorem foldl_batchStep_spec (ps : List (K × Option Val)) :
    ∀ e : Engine K,
      (ps.foldl batchStep e).wal = e.wal ++ ps.map mkPutRec
      ∧ (ps.foldl batchStep e).memtable = applyPairs e.memtable ps
      ∧ (ps.foldl batchStep e).maxSize = e.maxSize
      ∧ (ps.foldl batchStep e).sstables = e.sstables := by
  induction ps with
  | nil => intro e; simp [applyPairs]
  | cons p rest ih =>
    intro e
    rw [List.foldl_cons]
    obtain ⟨hw, hm, hx, hs⟩ := ih (batchStep e p)
    refine ⟨?_, ?_, ?_, ?_⟩
    · rw [hw]
      show (e.wal ++ [mkPutRec p]) ++ rest.map mkPutRec = e.wal ++ (mkPutRec p :: rest.map mkPutRec)
      simp
    · rw [hm]
      rfl
    · rw [hx]
      rfl
    · rw [hs]
      rfl

theorem mtReplay_map_mkPutRec (ps : List (K × Option Val)) :
    ∀ m : MT K, mtReplay m (ps.map mkPutRec) = applyPairs m ps := by
  induction ps with
  | nil => intro m; rfl
  | cons p rest ih =>
    intro m
    rw [List.map_cons]
    exact ih (mtPut m p.1 p.2)

/-- C4 counterexample: `batch_put([1,2], ["1","2"])` writes TWO WAL
records, not a single record carrying the batch; and replaying only the
first record (the durable prefix after a crash between the two appends)
recovers key `1` without key `2` — a partially applied batch. -/
theorem batch_put_two_wal_records :
    (engineBatchPut (freshEngine Nat 10) [1, 2] [some "1", some "2"]).wal.length = 2
    ∧ recoverMem
        ((engineBatchPut (freshEngine Nat 10) [1, 2] [some "1", some "2"]).wal.take 1)
      = [(1, some "1")] := by decide

/-- C4 (amended): `batch_put` validates equal lengths, then appends one WAL
`put` record per pair in batch order and applies it to the memtable; when no
flush is triggered the WAL afterwards ends with exactly those records, and
replaying any durable prefix of the batch's records into a fresh memtable
applies exactly that prefix of the batch — so a crash mid-batch recovers a
prefix, possibly proper, of the batch. -/
theorem batch_put_prefix_recovery (e : Engine K) (ks : List K) (vs : List (Option Val))
    (hlen : ks.length = vs.length)
    (hfull : ¬ mtIsFull (applyPairs e.memtable (ks.zip vs)) e.maxSize) :
    (engineBatchPut e ks vs).wal = e.wal ++ (ks.zip vs).map mkPutRec
    ∧ ∀ i : Nat,
        recoverMem (((ks.zip vs).map mkPutRec).take i) = applyPairs [] ((ks.zip vs).take i) := by
  constructor
  · unfold engineBatchPut
    rw [if_neg (fun hne => hne hlen)]
    dsimp only
    obtain ⟨hw, hm, hx, _⟩ := foldl_batchStep_spec (ks.zip vs) e
    rw [hm, hx, if_neg hfull]
    exact hw
  · intro i
    rw [← List.map_take]
    exact mtReplay_map_mkPutRec ((ks.zip vs).take i) []

theorem batch_put_prefix_recovery_witness :
    (engineBatchPut (freshEngine Nat 10) [1] [some "1"]).wal
      = (freshEngine Nat 10).wal ++ (([1].zip [some "1"]).map mkPutRec) :=
  (batch_put_prefix_recovery (freshEngine Nat 10) [1] [some "1"] rfl (by decide)).1

/-- C8 counterexample: a WAL whose first line is corrupt and whose second
line is a well-formed `put` record replays exactly like an empty WAL — the
well-formed record after the corruption is silently discarded and no
unrecoverable-WAL condition is raised or signalled. -/
theorem replay_midfile_corruption_silent :
    walReplayLines
        [WalLine.corrupt, WalLine.record { op := "put", key := 1, value := some "v" }]
      = walReplayLines [] := rfl

omit [LinearOrder K] in
/-- C8 (amended): `WAL.replay` returns the parseable records in file order,
oldest first; from the first unparseable line onward every record is
discarded and replay returns normally — mid-file corruption is treated
exactly like a torn trailing record (the file is effectively truncated at
the corruption), not detected or signalled as unrecoverable WAL state. -/
theorem replay_discards_from_first_corrupt (pre post : List (WalLine K))
    (h : WalLine.corrupt ∉ pre) :
    walReplayLines (pre ++ WalLine.corrupt :: post) = walReplayLines pre
    ∧ walReplayLines pre
        = pre.filterMap fun l =>
            match l with
            | WalLine.record r => some r
            | _ => none := by
  induction pre with
  | nil => simp [walReplayLines]
  | cons l rest ih =>
    have hnl : l ≠ WalLine.corrupt := fun hl => h (hl ▸ List.mem_cons_self _ _)
    have hrest : WalLine.corrupt ∉ rest := fun hr => h (List.mem_cons_of_mem _ hr)
    obtain ⟨ih1, ih2⟩ := ih hrest
    cases l with
    | blank =>
      constructor
      · show walReplayLines (rest ++ WalLine.corrupt :: post) = walReplayLines rest
        exact ih1
      · show walReplayLines rest = _
        simpa using ih2
    | corrupt => exact absurd rfl hnl
    | record r =>
      constructor
      · show r :: walReplayLines (rest ++ WalLine.corrupt :: post) = r :: walReplayLines rest
        rw [ih1]
      · show r :: walReplayLines rest = _
        simpa using ih2

theorem replay_discards_from_first_corrupt_witness :
    walReplayLines
        [WalLine.record { op := "put", key := 1, value := some "1" },
         WalLine.corrupt,
         WalLine.record { op := "delete", key := 2, value := none }]
      = walReplayLines [WalLine.record { op := "put", key := 1, value := some "1" }] :=
  (replay_discards_from_first_corrupt
    [WalLine.record { op := "put", key := 1, value := some "1" }]
    [WalLine.record { op := "delete", key := 2, value := none }] (by decide)).1

/-- C1 (the code at the failing input): from a fresh engine,
`put(1, "v")`, an explicit flush, then `delete(1)` leaves the tombstone in
the memtable and the old value in the SSTable — and `get(1)` returns the
stale `"v"`, not absent: `MemTable.get` returns `None` for the tombstone,
which `StorageEngine.get` reads as a miss and falls through to the older
SSTable. -/
theorem put_delete_get_stale :
    engineGet (runOps [Op.put 1 (some "v"), Op.flushOp, Op.del 1] (freshEngine Nat 10)) 1
      = some "v" := by decide

/-- C2 (the code at the failing input): with `memtable_size = 1`,
`put(1, "v")` flushes an SSTable holding the value and `delete(1)` flushes a
newer SSTable holding the tombstone; the newest layer containing key 1 is
the tombstone layer, yet `get(1)` returns `"v"`: the `None` stored for the
tombstone is indistinguishable from absence, so the scan continues into the
older SSTable instead of stopping with absent. -/
theorem get_tombstone_falls_through :
    (runOps [Op.put 1 (some "v"), Op.del 1] (freshEngine Nat 1)).sstables
        = [[(1, some "v")], [(1, none)]]
    ∧ (runOps [Op.put 1 (some "v"), Op.del 1] (freshEngine Nat 1)).memtable = []
    ∧ engineGet (runOps [Op.put 1 (some "v"), Op.del 1] (freshEngine Nat 1)) 1 = some "v" := by
  decide

/-- C3 (the code at the failing input): `SSTable.get_range` filters
tombstones out (first conjunct), so the engine's cross-layer merge never
sees them; consequently after `put(2, "3")`, a flush, and `delete(2)`, the
range `[1, 3]` still returns key 2 with the stale value even though the
newest occurrence of key 2 is a tombstone. -/
theorem range_returns_deleted_key :
    sstGetRange [((2 : Nat), none)] 1 3 = []
    ∧ engineGetRange (runOps [Op.put 2 (some "3"), Op.flushOp, Op.del 2] (freshEngine Nat 10)) 1 3
        = [(2, "3")] := by decide

/-- C5 (the code at the failing input): with `memtable_size = 1`,
`put(5, "old")` and `delete(5)` produce two SSTables (value below, tombstone
above); before compaction `get(5)` returns `"old"` (the tombstone falls
through), after compaction the tombstone is garbage-collected together with
the shadowed value and `get(5)` is absent — compaction changed the
observable state, although exactly one SSTable remains. -/
theorem compaction_changes_observable_state :
    engineGet (runOps [Op.put 5 (some "old"), Op.del 5] (freshEngine Nat 1)) 5 = some "old"
    ∧ engineGet (runOps [Op.put 5 (some "old"), Op.del 5, Op.compactOp] (freshEngine Nat 1)) 5
        = none
    ∧ (runOps [Op.put 5 (some "old"), Op.del 5, Op.compactOp] (freshEngine Nat 1)).sstables.length
        = 1 := by decide

/-- C10 counterexample: when an older SSTable holds key 1 with value `"w"`,
`put(1, null)` does not make `get(1)` absent and does not exclude key 1 from
range results — the null tombstone (like a real delete) fails to shadow the
older layer, so the claim's "returns absent and is excluded from every
range" is false as stated. -/
theorem put_null_shadowed_by_older_layer :
    engineGet (runOps [Op.put 1 (some "w"), Op.flushOp, Op.put 1 none] (freshEngine Nat 10)) 1
        = some "w"
    ∧ engineGetRange (runOps [Op.put 1 (some "w"), Op.flushOp, Op.put 1 none] (freshEngine Nat 10))
        0 2 = [(1, "w")] := by decide

theorem mtPut_none (m : MT K) (k : K) : mtPut m k none = mtDelete m k := rfl

theorem mtGet_alInsert_self (m : MT K) (k : K) : mtGet (alInsert m k none) k = none := by
  unfold mtGet
  rw [alFind_alInsert, if_pos rfl]
  rfl

theorem sstSearch_eq_none {k : K} :
    ∀ {l : List (SST K)}, (∀ t ∈ l, sstGet t k = none) → sstSearch k l = none := by
  intro l
  induction l with
  | nil => intro _; rfl
  | cons t ts ih =>
    intro h
    have ht := h t (List.mem_cons_self _ _)
    simp only [sstSearch, ht]
    exact ih fun u hu => h u (List.mem_cons_of_mem _ hu)

theorem engineGet_eq_none {e : Engine K} {k : K} (h1 : mtGet e.memtable k = none)
    (h2 : ∀ t ∈ e.sstables, sstGet t k = none) : engineGet e k = none := by
  unfold engineGet
  rw [h1]
  exact sstSearch_eq_none fun t ht => h2 t (List.mem_reverse.mp ht)

theorem alFind_foldl_alInsert_of_ne {β : Type} {k : K} :
    ∀ (ps : List (K × β)) (acc : List (K × β)), (∀ p ∈ ps, p.1 ≠ k) →
      alFind (ps.foldl (fun a kv => alInsert a kv.1 kv.2) acc) k = alFind acc k := by
  intro ps
  induction ps with
  | nil => intro acc _; rfl
  | cons p rest ih =>
    intro acc h
    rw [List.foldl_cons, ih _ fun q hq => h q (List.mem_cons_of_mem _ hq),
        alFind_alInsert, if_neg (fun he => h p (List.mem_cons_self _ _) he.symm)]

theorem foldl_sstKeys_none {k : K} {t : SST K} (ht : sstGet t k = none) :
    ∀ (ks : List K) (acc : List (K × Option Val)),
      (∀ p ∈ acc, p.1 = k → p.2 = none) →
      ∀ p ∈ ks.foldl (fun a kk => alInsert a kk (sstGet t kk)) acc, p.1 = k → p.2 = none := by
  intro ks
  induction ks with
  | nil => intro acc hacc; exact hacc
  | cons kk rest ih =>
    intro acc hacc
    rw [List.foldl_cons]
    refine ih _ fun p hp hpk => ?_
    rcases mem_alInsert hp with rfl | hp
    · dsimp only at hpk ⊢
      rw [hpk]
      exact ht
    · exact hacc p hp hpk

theorem foldl_allData_none {k : K} :
    ∀ (S : List (SST K)) (acc : List (K × Option Val)),
      (∀ t ∈ S, sstGet t k = none) →
      (∀ p ∈ acc, p.1 = k → p.2 = none) →
      ∀ p ∈ S.foldl
          (fun acc2 t => (sstKeys t).foldl (fun a kk => alInsert a kk (sstGet t kk)) acc2) acc,
        p.1 = k → p.2 = none := by
  intro S
  induction S with
  | nil => intro acc _ hacc; exact hacc
  | cons t rest ih =>
    intro acc hS hacc
    rw [List.foldl_cons]
    exact ih _ (fun u hu => hS u (List.mem_cons_of_mem _ hu))
      (foldl_sstKeys_none (hS t (List.mem_cons_self _ _)) _ _ hacc)

theorem compactList_preserves_none {k : K} {S : List (SST K)}
    (h : ∀ t ∈ S, sstGet t k = none) : ∀ t ∈ compactList S, sstGet t k = none := by
  unfold compactList
  split
  · exact h
  · intro t ht
    dsimp only at ht
    rcases List.mem_singleton.mp ht with rfl
    unfold sstGet sstWrite
    rw [alFind_foldl_alInsert_of_ne]
    · rfl
    · intro p hp hpk
      have hall := List.mem_filter.mp hp
      have hnone : p.2 = none := foldl_allData_none S [] h (by simp) p hall.1 hpk
      rw [hnone] at hall
      simp at hall

theorem engineFlush_preserves_none {e : Engine K} {k : K}
    (hsorted : MTSorted e.memtable)
    (hmem : mtGet e.memtable k = none)
    (hsst : ∀ t ∈ e.sstables, sstGet t k = none) :
    ∀ t ∈ (engineFlush e).sstables, sstGet t k = none := by
  by_cases hm : e.memtable = []
  · unfold engineFlush
    rw [if_pos hm]
    exact hsst
  · rw [engineFlush_sstables hm]
    have hnew : sstGet (sstWrite e.memtable) k = none := by
      rw [sstWrite_of_sorted hsorted]
      exact hmem
    have hall : ∀ t ∈ e.sstables ++ [sstWrite e.memtable], sstGet t k = none := by
      intro t ht
      rcases List.mem_append.mp ht with h | h
      · exact hsst t h
      · rcases List.mem_singleton.mp h with rfl
        exact hnew
    split
    · exact compactList_preserves_none hall
    · exact hall

theorem engineFlush_congr {e₁ e₂ : Engine K} (hm : e₁.memtable = e₂.memtable)
    (hs : e₁.sstables = e₂.sstables) :
    (engineFlush e₁).memtable = (engineFlush e₂).memtable
    ∧ (engineFlush e₁).sstables = (engineFlush e₂).sstables := by
  by_cases h : e₁.memtable = []
  · unfold engineFlush
    rw [if_pos h, if_pos (hm.symm.trans h)]
    exact ⟨hm, hs⟩
  · have h2 : e₂.memtable ≠ [] := fun hh => h (hm.trans hh)
    rw [engineFlush_memtable h, engineFlush_memtable h2,
        engineFlush_sstables h, engineFlush_sstables h2, hm, hs]
    exact ⟨rfl, rfl⟩

/-- C10 (amended): `put(k, null)` stores the same `None` tombstone as
`delete(k)`: the resulting memtable and SSTable list are identical, the two
WAL records replay to identical memtable effects, and every subsequent `get`
and `range` observes identical results — the two mutations are
indistinguishable at the engine's public interface.  A subsequent `get(k)`
returns absent provided (as for a real delete) the memtable is sorted and no
SSTable layer holds a non-null value for `k`; a null tombstone does not
shadow older layers. -/
theorem put_null_equals_delete (e : Engine K) (k : K) :
    (enginePut e k none).memtable = (engineDelete e k).memtable
    ∧ (enginePut e k none).sstables = (engineDelete e k).sstables
    ∧ (∀ m : MT K, recApply m { op := "put", key := k, value := none }
        = recApply m { op := "delete", key := k, value := none })
    ∧ (∀ k' : K, engineGet (enginePut e k none) k' = engineGet (engineDelete e k) k')
    ∧ (∀ lo hi : K, engineGetRange (enginePut e k none) lo hi
        = engineGetRange (engineDelete e k) lo hi)
    ∧ (MTSorted e.memtable → (∀ t ∈ e.sstables, sstGet t k = none)
        → engineGet (enginePut e k none) k = none) := by
  have hparts : (enginePut e k none).memtable = (engineDelete e k).memtable
      ∧ (enginePut e k none).sstables = (engineDelete e k).sstables := by
    unfold enginePut engineDelete
    dsimp only
    rw [mtPut_none]
    by_cases hfull : mtIsFull (mtDelete e.memtable k) e.maxSize
    · rw [if_pos hfull, if_pos hfull]
      exact engineFlush_congr rfl rfl
    · rw [if_neg hfull, if_neg hfull]
      exact ⟨rfl, rfl⟩
  obtain ⟨hmem, hsst⟩ := hparts
  refine ⟨hmem, hsst, fun m => rfl, ?_, ?_, ?_⟩
  · intro k'
    unfold engineGet
    rw [hmem, hsst]
  · intro lo hi
    unfold engineGetRange
    rw [hmem, hsst]
  · intro hsorted hnone
    by_cases hfull : mtIsFull (mtPut e.memtable k none) e.maxSize
    · have hput : enginePut e k none = engineFlush
          { e with
            wal := e.wal ++ [{ op := "put", key := k, value := none }],
            memtable := mtPut e.memtable k none } := by
        unfold enginePut
        dsimp only
        rw [if_pos hfull]
      rw [hput]
      refine engineGet_eq_none ?_ ?_
      · rw [engineFlush_memtable (alInsert_ne_nil e.memtable k none)]
        rfl
      · exact engineFlush_preserves_none (alInsert_sorted hsorted k none)
          (mtGet_alInsert_self e.memtable k) hnone
    · have hput : enginePut e k none =
          { e with
            wal := e.wal ++ [{ op := "put", key := k, value := none }],
            memtable := mtPut e.memtable k none } := by
        unfold enginePut
        dsimp only
        rw [if_neg hfull]
      rw [hput]
      exact engineGet_eq_none (mtGet_alInsert_self e.memtable k) hnone

theorem put_null_equals_delete_witness :
    engineGet (enginePut (freshEngine Nat 10) 7 none) 7 = none :=
  (put_null_equals_delete (freshEngine Nat 10) 7).2.2.2.2.2 mtSorted_nil (by decide)
